import Mathlib

/-!
Verification of the Tip Allocation & Transfer Orchestration Engine of
`wet_scripting/uninduced_day_5/complete_protocol.py` (class `CustomPipette`
and the induction-scheduling part of `run`).

The embedding is shallow:
* a tip slot (`TipWell`) carries its `has_tip` flag and nominal capacity;
* a tip rack is a list of columns, each column a list of wells
  (the physical racks are 12 columns x 8 rows);
* volumes are rationals (`1.1` is `11/10`);
* fallible operations return `Except`, physical driver calls are recorded
  as explicit action/event traces.
-/

namespace Protocol

/-- A tip position in a rack: the `Well` objects of the source, restricted to
the two attributes the engine reads (`has_tip`, `max_volume`). -/
structure TipWell where
  has_tip : Bool
  max_volume : ℚ
  deriving DecidableEq, Repr

/-- A column of a tip rack, bottom row at index 7 for the physical 8-row racks. -/
abbrev TipColumn := List TipWell

/-- A tip rack: columns in natural order (`tip_rack.columns()` of the source). -/
abbrev TipRack := List TipColumn

/-- The truth-table row the source builds for one column:
`[well.has_tip for well in column]`. -/
def columnTips (col : TipColumn) : List Bool :=
  col.map (fun w => w.has_tip)

/-- `runFree tt w n` is the source's slice check
`all(truth_table[i1][well_index:well_index+number_of_tips])`. -/
def runFree (tt : List Bool) (w n : ℕ) : Bool :=
  ((tt.drop w).take n).all (fun b => b)

/-- Inner loop of `CustomPipette.next_tip` over one column: iterate `i2` over
`enumerate(column[::-1])`, set `well_index = 7 - i2`, skip when
`well_index + number_of_tips > 8`, and return the first `well_index` whose
slice of the truth table is all `True`. -/
def columnSearch (col : TipColumn) (n : ℕ) : Option ℕ :=
  (List.range col.length).findSome? (fun i2 =>
    let w := 7 - i2
    if w + n > 8 then none
    else if runFree (columnTips col) w n then some w else none)

/-- Middle loop of `next_tip`: columns of a rack in natural order (`enumerate`
starting at column index `i1`), stopping at the first column with a hit. -/
def rackSearchAux (cols : List TipColumn) (i1 n : ℕ) : Option (ℕ × ℕ) :=
  match cols with
  | [] => none
  | col :: rest =>
    match columnSearch col n with
    | some w => some (i1, w)
    | none => rackSearchAux rest (i1 + 1) n

def rackSearch (rack : TipRack) (n : ℕ) : Option (ℕ × ℕ) :=
  rackSearchAux rack 0 n

/-- Outer loop of `next_tip` over `self.tip_racks`, starting at rack index
`ir`, stopping at the first rack with a hit. -/
def nextTipAux (racks : List TipRack) (ir n : ℕ) : Option (ℕ × ℕ × ℕ) :=
  match racks with
  | [] => none
  | rack :: rest =>
    match rackSearch rack n with
    | some cw => some (ir, cw.1, cw.2)
    | none => nextTipAux rest (ir + 1) n

/-- `CustomPipette.next_tip(number_of_tips)`: the index `(rack, column, row)`
of the returned well, `none` when the source raises `OutOfTipsError`. -/
def next_tip (racks : List TipRack) (n : ℕ) : Option (ℕ × ℕ × ℕ) :=
  nextTipAux racks 0 n

/-! ### The spec-side description of the search

Spec 4.2: "iterate the pipette's tip racks in configured order; within a
rack, iterate columns in natural order; within a column, search for the
lowest-row-starting contiguous run of `count` available slots, scanning from
the bottom of the column upward (row index 7 down to 0 for an 8-row rack)".
We realise that sentence as a single ordered candidate list searched with
`List.find?`. -/

/-- Candidate start rows of a column in spec order: bottom of the column
upward, keeping only starts whose run of `n` fits within the 8 rows. -/
def columnStarts (len n : ℕ) : List ℕ :=
  (List.range len).filterMap (fun i2 =>
    let w := 7 - i2
    if w + n > 8 then none else some w)

def rackOrderAux (cols : List TipColumn) (i1 n : ℕ) : List (ℕ × ℕ) :=
  match cols with
  | [] => []
  | col :: rest =>
    (columnStarts col.length n).map (fun w => (i1, w)) ++ rackOrderAux rest (i1 + 1) n

/-- All candidate `(rack, column, row)` triples in the spec's search order. -/
def searchOrderAux (racks : List TipRack) (ir n : ℕ) : List (ℕ × ℕ × ℕ) :=
  match racks with
  | [] => []
  | rack :: rest =>
    (rackOrderAux rack 0 n).map (fun cw => (ir, cw.1, cw.2)) ++ searchOrderAux rest (ir + 1) n

def searchOrder (racks : List TipRack) (n : ℕ) : List (ℕ × ℕ × ℕ) :=
  searchOrderAux racks 0 n

/-- The well stored at an absolute `(rack, column, row)` index. -/
def wellAt (racks : List TipRack) (r c w : ℕ) : TipWell :=
  ((racks.getD r []).getD c []).getD w ⟨false, 0⟩

/-- A candidate `(rack, column, row)` starts a run of `n` available slots. -/
def freeRunAt (racks : List TipRack) (n : ℕ) (t : ℕ × ℕ × ℕ) : Bool :=
  runFree (columnTips ((racks.getD t.1 []).getD t.2.1 [])) t.2.2 n

lemma findSome?_bind_find? {α β : Type*} (l : List α) (f : α → Option β) (p : β → Bool) :
    (l.findSome? fun a => (f a).bind fun b => if p b then some b else none)
      = (l.filterMap f).find? p := by
  induction l with
  | nil => rfl
  | cons a t ih =>
    cases hfa : f a with
    | none => simp [List.findSome?_cons, List.filterMap_cons, hfa, ih]
    | some b =>
      by_cases hb : p b
      · simp [List.findSome?_cons, List.filterMap_cons, hfa, hb]
      · simp [List.findSome?_cons, List.filterMap_cons, hfa, hb, ih]

lemma columnSearch_eq_find? (col : TipColumn) (n : ℕ) :
    columnSearch col n
      = (columnStarts col.length n).find? (fun w => runFree (columnTips col) w n) := by
  have h := findSome?_bind_find? (List.range col.length)
      (fun i2 => if 7 - i2 + n > 8 then none else some (7 - i2))
      (fun w => runFree (columnTips col) w n)
  rw [columnSearch, columnStarts, ← h]
  congr 1
  funext i2
  by_cases hg : 7 - i2 + n > 8 <;> simp [hg]

lemma getD_of_drop_cons {α : Type*} {l : List α} {i : ℕ} {a : α} {t : List α}
    (h : l.drop i = a :: t) (d : α) : l.getD i d = a := by
  have h0 : l[i]? = some a := by
    have := List.getElem?_drop l i 0
    rw [h] at this
    simpa using this.symm
  simp [List.getD_eq_getElem?_getD, h0]

lemma drop_succ_of_drop_cons {α : Type*} {l : List α} {i : ℕ} {a : α} {t : List α}
    (h : l.drop i = a :: t) : l.drop (i + 1) = t := by
  have := List.drop_drop 1 i l
  rw [h] at this
  simpa using this.symm

lemma rackSearchAux_eq (full : TipRack) (n : ℕ) :
    ∀ (cols : List TipColumn) (i1 : ℕ), full.drop i1 = cols →
    rackSearchAux cols i1 n
      = (rackOrderAux cols i1 n).find?
          (fun cw => runFree (columnTips (full.getD cw.1 [])) cw.2 n) := by
  intro cols
  induction cols with
  | nil => intro i1 _; rfl
  | cons col rest ih =>
    intro i1 hdrop
    have hget : full.getD i1 [] = col := getD_of_drop_cons hdrop []
    have hrest := ih (i1 + 1) (drop_succ_of_drop_cons hdrop)
    have hcomp :
        ((fun cw : ℕ × ℕ => runFree (columnTips (full.getD cw.1 [])) cw.2 n) ∘
          (fun w => (i1, w)))
          = (fun w => runFree (columnTips col) w n) := by
      funext w
      show runFree (columnTips (full.getD i1 [])) w n = runFree (columnTips col) w n
      rw [hget]
    rw [rackSearchAux, rackOrderAux, List.find?_append, List.find?_map, hcomp,
      ← columnSearch_eq_find?]
    cases hcs : columnSearch col n with
    | some w => simp
    | none => simpa using hrest

lemma nextTipAux_eq (fullRacks : List TipRack) (n : ℕ) :
    ∀ (racks : List TipRack) (ir : ℕ), fullRacks.drop ir = racks →
    nextTipAux racks ir n
      = (searchOrderAux racks ir n).find? (freeRunAt fullRacks n) := by
  intro racks
  induction racks with
  | nil => intro ir _; rfl
  | cons rack rest ih =>
    intro ir hdrop
    have hget : fullRacks.getD ir [] = rack := getD_of_drop_cons hdrop []
    have hrest := ih (ir + 1) (drop_succ_of_drop_cons hdrop)
    have hcomp :
        (freeRunAt fullRacks n ∘ (fun cw : ℕ × ℕ => (ir, cw.1, cw.2)))
          = (fun cw : ℕ × ℕ => runFree (columnTips (rack.getD cw.1 [])) cw.2 n) := by
      funext cw
      show runFree (columnTips ((fullRacks.getD ir []).getD cw.1 [])) cw.2 n
        = runFree (columnTips (rack.getD cw.1 [])) cw.2 n
      rw [hget]
    rw [nextTipAux, searchOrderAux, List.find?_append, List.find?_map, hcomp,
      ← rackSearchAux_eq rack n rack 0 rfl]
    simp only [rackSearch]
    cases hcs : rackSearchAux rack 0 n with
    | some cw => simp
    | none => simpa using hrest

/-- The source's `next_tip` is exactly the first candidate, in the spec's
search order, that starts a free run. Holds for arbitrary rack shapes. -/
lemma next_tip_eq_find?_searchOrder (racks : List TipRack) (n : ℕ) :
    next_tip racks n = (searchOrder racks n).find? (freeRunAt racks n) :=
  nextTipAux_eq racks n racks 0 rfl

/-! ### Pipette state and the volume-guarded operations -/

/-- Error taxonomy (spec 7). The source raises `OutOfTipsError` from
`next_tip`, a `ValueError` from the tip-count check of `pick_up_tip` (the
spec's `InvalidRequest`) and a `ValueError` from the capacity check of
`transfer` (the spec's `InsufficientCapacity`). -/
inductive PipError where
  | outOfTips
  | invalidRequest
  | insufficientCapacity
  deriving DecidableEq, Repr

/-- Opaque location handle (well / reservoir), passed through to the driver. -/
abbrev Loc := ℕ

/-- Physical driver calls issued by `transfer`, recorded in order. -/
inductive Action where
  | aspirate (v : ℚ) (loc : Loc)
  | dispense (v : ℚ) (loc : Loc)
  | blowOut (loc : Loc)
  | touchTip (loc : Loc)
  deriving DecidableEq, Repr

/-- Observable events of `pick_up_tip`: the operator refill prompt
(`input(...)`), and the delegation to the base `pick_up_tip` at a location. -/
inductive Event where
  | promptRefill
  | basePickUp (loc : ℕ × ℕ × ℕ)
  deriving DecidableEq, Repr

/-- The pipette state the engine reads and writes: channel count, maximum
tip volume (`self.max_volume`, spec 3: the Pipette's "maximum tip volume"),
whether a tip is attached, the held volume, and the configured tip racks in
search order. -/
structure Pipette where
  channels : ℕ
  max_volume : ℚ
  has_tip : Bool
  current_volume : ℚ
  tip_racks : List TipRack
  deriving DecidableEq, Repr

/-- Modelled from the spec (driver collaborator, spec 6): `aspirate` adds the
aspirated volume to the pipette's held volume. -/
def doAspirate (p : Pipette) (v : ℚ) : Pipette :=
  { p with current_volume := p.current_volume + v }

/-- Modelled from the spec (driver collaborator, spec 6): `dispense` removes
the dispensed volume from the pipette's held volume. -/
def doDispense (p : Pipette) (v : ℚ) : Pipette :=
  { p with current_volume := p.current_volume - v }

/-- Modelled from the spec (driver collaborator, spec 6): `blow_out` expels
everything remaining in the tip. -/
def doBlowOut (p : Pipette) : Pipette :=
  { p with current_volume := 0 }

/-- `CustomPipette.get_available_volume`: available space in the held tip,
or the lookahead `min(next_tip(1).max_volume, self.max_volume)`; the
lookahead claims nothing (`next_tip` is read-only) and performs no refill
recovery, so exhaustion surfaces as `OutOfTipsError`. -/
def get_available_volume (p : Pipette) : Except PipError ℚ :=
  if p.has_tip then .ok (p.max_volume - p.current_volume)
  else
    match next_tip p.tip_racks 1 with
    | none => .error .outOfTips
    | some t => .ok (min (wellAt p.tip_racks t.1 t.2.1 t.2.2).max_volume p.max_volume)

/-- Step 1 of `transfer`: if the pipette holds residual volume
(`if self.get_current_volume():`), dispense all of it into the source. -/
def residualStep (p : Pipette) (source : Loc) : List Action × Pipette :=
  if p.current_volume ≠ 0 then
    ([Action.dispense p.current_volume source], doDispense p p.current_volume)
  else ([], p)

/-- `CustomPipette.transfer`: residual clear, guarded aspiration
(over-aspirate by 10% when `reverse` fits the headroom), capacity check
before the physical aspirate, dispense of the originally requested volume,
then optional blow-out and touch-tip. Returns the trace of driver calls
performed and either the error raised or the resulting pipette state (the
source returns `self.get_current_volume()` of that state). In the source
`get_available_volume` is evaluated (once or twice) after the residual
clear; both reads see the same state, so it is read once here. -/
def transfer (p : Pipette) (volume : ℚ) (source destination : Loc)
    (touch_tip blow_out reverse : Bool) : List Action × Except PipError Pipette :=
  let r := residualStep p source
  match get_available_volume r.2 with
  | .error e => (r.1, .error e)
  | .ok headroom =>
    let aspiration_volume :=
      if reverse = true ∧ volume * (11/10) ≤ headroom then volume * (11/10) else volume
    if aspiration_volume > headroom then (r.1, .error .insufficientCapacity)
    else
      let p₂ := doDispense (doAspirate r.2 aspiration_volume) volume
      let bstep := if blow_out then ([Action.blowOut destination], doBlowOut p₂) else ([], p₂)
      let tacts := if touch_tip then [Action.touchTip destination] else []
      (r.1 ++ [Action.aspirate aspiration_volume source, Action.dispense volume destination]
        ++ bstep.1 ++ tacts, .ok bstep.2)

/-- Modelled from the spec (tracker 4.1): claiming a slot for pickup removes
it from the available pool; in the source this bookkeeping is performed by
the base `pick_up_tip` at the chosen location. -/
def updateAt {α : Type*} (l : List α) (i : ℕ) (f : α → α) : List α :=
  match l, i with
  | [], _ => []
  | a :: t, 0 => f a :: t
  | a :: t, i + 1 => a :: updateAt t i f

def claimWell (racks : List TipRack) (r c w : ℕ) : List TipRack :=
  updateAt racks r (fun rack => updateAt rack c (fun col =>
    updateAt col w (fun well => { well with has_tip := false })))

/-- Modelled from the spec (tracker 4.1 / allocator 4.2): a claim marks the
`n` consecutive slots of the chosen run unavailable. -/
def claimRun (racks : List TipRack) (r c w : ℕ) : ℕ → List TipRack
  | 0 => racks
  | m + 1 => claimRun (claimWell racks r c w) r c (w + 1) m

/-- Modelled from the spec (refill coordinator 4.3): the source's
`super().reset_tipracks()` resets every slot of every configured rack to
available. -/
def resetRacks (racks : List TipRack) : List TipRack :=
  racks.map (fun rack => rack.map (fun col => col.map
    (fun well => { well with has_tip := true })))

/-- Modelled from the spec (driver collaborator, spec 6): the base pick-up at
the run starting at slot `t` attaches tips and claims the run's `n` slots. -/
def basePickUp (p : Pipette) (t : ℕ × ℕ × ℕ) (n : ℕ) : Pipette :=
  { p with has_tip := true, tip_racks := claimRun p.tip_racks t.1 t.2.1 t.2.2 n }

/-- `CustomPipette.pick_up_tip(number, **kwargs)`. A truthy `location` kwarg
bypasses everything and delegates to the base class (the base pick-up at a
caller-supplied opaque location; tracker bookkeeping for such a location is
outside the engine, so only the tip attachment is modelled). Otherwise the
tip count is validated, the tip search runs, and on exhaustion the operator
is prompted once, every rack is reset to full and the identical request is
retried exactly once; a second failure propagates `OutOfTipsError`. -/
def pick_up_tip (p : Pipette) (number : ℤ) (location : Option (ℕ × ℕ × ℕ)) :
    List Event × Except PipError Pipette :=
  match location with
  | some loc => ([Event.basePickUp loc], .ok { p with has_tip := true })
  | none =>
    if ¬(0 < number ∧ number ≤ (p.channels : ℤ)) then ([], .error .invalidRequest)
    else
      match next_tip p.tip_racks number.toNat with
      | some t => ([Event.basePickUp t], .ok (basePickUp p t number.toNat))
      | none =>
        let p' := { p with tip_racks := resetRacks p.tip_racks }
        match next_tip p'.tip_racks number.toNat with
        | some t => ([Event.promptRefill, Event.basePickUp t], .ok (basePickUp p' t number.toNat))
        | none => ([Event.promptRefill], .error .outOfTips)

/-- A demonstration pipette: the protocol's 8-channel p20 with one fresh
`opentrons_96_tiprack_20ul`-shaped rack (12 columns of 8 available tips). -/
def demoPipette : Pipette :=
  { channels := 8
    max_volume := 20
    has_tip := false
    current_volume := 0
    tip_racks := [List.replicate 12 (List.replicate 8 ⟨true, 20⟩)] }

/-! ### Claim theorems -/

/-- C1: for every pipette configuration of 8-row racks and every tip count,
the tip search iterates the configured racks in order, columns in natural
order, and start rows bottom-up (row 7 down to 0), returning the first
candidate that starts a run of `n` consecutive available slots fitting
within the 8-row column (`searchOrder` lists the candidates in exactly that
order and keeps exactly the starts whose run fits). -/
theorem next_tip_is_first_free_in_search_order (racks : List TipRack) (n : ℕ)
    (h8 : ∀ rack ∈ racks, ∀ col ∈ rack, col.length = 8) :
    next_tip racks n = (searchOrder racks n).find? (freeRunAt racks n) :=
  next_tip_eq_find?_searchOrder racks n

/-- Witness for C1, including the spec's scenario: a rack with one column of
8 free rows, `count = 3`, yields the bottom-anchored run at rows 5-7. -/
theorem next_tip_is_first_free_witness :
    next_tip [[List.replicate 8 (⟨true, 300⟩ : TipWell)]] 3 = some (0, 0, 5) ∧
    next_tip [[List.replicate 8 (⟨true, 300⟩ : TipWell)]] 3
      = (searchOrder [[List.replicate 8 (⟨true, 300⟩ : TipWell)]] 3).find?
          (freeRunAt [[List.replicate 8 (⟨true, 300⟩ : TipWell)]] 3) :=
  ⟨by decide,
    next_tip_is_first_free_in_search_order [[List.replicate 8 ⟨true, 300⟩]] 3 (by decide)⟩

/-- C9: a truthy `location` argument bypasses the count validation, the
exhaustion check and the refill prompt: the call delegates directly to the
base pick-up at that location, for every `number` and every tracker state. -/
theorem pick_up_tip_location_bypass (p : Pipette) (number : ℤ) (loc : ℕ × ℕ × ℕ) :
    pick_up_tip p number (some loc)
      = ([Event.basePickUp loc], .ok { p with has_tip := true }) :=
  rfl

/-- C4: without an explicit location, `pick_up_tip` fails with the
`InvalidRequest` error — immediately, with no event issued — exactly when
the requested count is not a positive integer bounded by the channel count. -/
theorem pick_up_tip_invalid_request (p : Pipette) (number : ℤ) :
    ((pick_up_tip p number none).2 = .error .invalidRequest ↔
      ¬(0 < number ∧ number ≤ (p.channels : ℤ))) ∧
    (¬(0 < number ∧ number ≤ (p.channels : ℤ)) →
      pick_up_tip p number none = ([], .error .invalidRequest)) := by
  by_cases hv : 0 < number ∧ number ≤ (p.channels : ℤ)
  · refine ⟨⟨fun h => ?_, fun h => absurd hv h⟩, fun h => absurd hv h⟩
    revert h
    simp only [pick_up_tip, if_neg (not_not_intro hv)]
    cases h1 : next_tip p.tip_racks number.toNat with
    | some t => simp
    | none =>
      cases h2 : next_tip (resetRacks p.tip_racks) number.toNat with
      | some t => simp
      | none => simp
  · refine ⟨⟨fun _ => hv, fun _ => ?_⟩, fun _ => ?_⟩ <;>
      simp [pick_up_tip, hv]

/-- Witness for C4: `count = 0` and `count = 9` on the 8-channel pipette
both fail with `InvalidRequest`. -/
theorem pick_up_tip_invalid_request_witness :
    pick_up_tip demoPipette 0 none = ([], .error .invalidRequest) ∧
    pick_up_tip demoPipette 9 none = ([], .error .invalidRequest) :=
  ⟨(pick_up_tip_invalid_request demoPipette 0).2 (by decide),
    (pick_up_tip_invalid_request demoPipette 9).2 (by decide)⟩

/-- C6: `get_available_volume` returns the held tip's remaining space
(`max_volume - current_volume`) when a tip is attached, and otherwise the
minimum of the next allocatable tip's nominal capacity and the pipette's
maximum volume; being a pure read, it claims nothing. -/
theorem get_available_volume_cases (p : Pipette) :
    (p.has_tip = true →
      get_available_volume p = .ok (p.max_volume - p.current_volume)) ∧
    (p.has_tip = false → ∀ t, next_tip p.tip_racks 1 = some t →
      get_available_volume p
        = .ok (min (wellAt p.tip_racks t.1 t.2.1 t.2.2).max_volume p.max_volume)) := by
  constructor
  · intro h
    simp [get_available_volume, h]
  · intro h t ht
    simp [get_available_volume, h, ht]

/-- Witness for C6: the demonstration pipette without a tip reads the next
tip's 20 uL capacity; with a tip and 5 uL held it reads 15 uL of headroom. -/
theorem get_available_volume_cases_witness :
    get_available_volume demoPipette = .ok 20 ∧
    get_available_volume { demoPipette with has_tip := true, current_volume := 5 }
      = .ok 15 := by
  constructor
  · have h := (get_available_volume_cases demoPipette).2 (by decide) (0, 0, 7) (by decide)
    rw [h]
    norm_num [wellAt, demoPipette]
  · have h := (get_available_volume_cases
      { demoPipette with has_tip := true, current_volume := 5 }).1 (by decide)
    rw [h]
    norm_num [demoPipette]

lemma residualStep_no_aspirate (p : Pipette) (src : Loc) :
    ∀ a ∈ (residualStep p src).1, ∀ v l, a ≠ Action.aspirate v l := by
  intro a ha v l
  rw [residualStep] at ha
  split at ha <;> simp_all

lemma residualStep_current_volume (p : Pipette) (src : Loc) :
    (residualStep p src).2.current_volume = 0 := by
  rw [residualStep]
  split <;> simp_all [doDispense]

lemma residualStep_trace (p : Pipette) (src : Loc) :
    (residualStep p src).1
      = if p.current_volume ≠ 0 then [Action.dispense p.current_volume src] else [] := by
  rw [residualStep]
  split <;> simp_all

/-- Unfolding of `transfer` in the rejecting case: the residual clear has
happened, then the capacity guard fires before any aspirate. -/
lemma transfer_eq_insufficient (p : Pipette) (volume : ℚ) (src dst : Loc)
    (tt bo rev : Bool) (headroom asp : ℚ)
    (hh : get_available_volume (residualStep p src).2 = .ok headroom)
    (hasp : asp = if rev = true ∧ volume * (11/10) ≤ headroom
      then volume * (11/10) else volume)
    (hg : asp > headroom) :
    transfer p volume src dst tt bo rev
      = ((residualStep p src).1, .error .insufficientCapacity) := by
  subst hasp
  simp only [transfer, hh]
  rw [if_pos hg]

/-- Unfolding of `transfer` in the accepting case: the full driver-call
sequence and the resulting pipette state. -/
lemma transfer_eq_ok (p : Pipette) (volume : ℚ) (src dst : Loc)
    (tt bo rev : Bool) (headroom asp : ℚ)
    (hh : get_available_volume (residualStep p src).2 = .ok headroom)
    (hasp : asp = if rev = true ∧ volume * (11/10) ≤ headroom
      then volume * (11/10) else volume)
    (hg : ¬ asp > headroom) :
    transfer p volume src dst tt bo rev
      = ((residualStep p src).1
          ++ [Action.aspirate asp src, Action.dispense volume dst]
          ++ (if bo = true then [Action.blowOut dst] else [])
          ++ (if tt = true then [Action.touchTip dst] else []),
        .ok (if bo = true
          then doBlowOut (doDispense (doAspirate (residualStep p src).2 asp) volume)
          else doDispense (doAspirate (residualStep p src).2 asp) volume)) := by
  subst hasp
  simp only [transfer, hh]
  rw [if_neg hg]
  by_cases hbo : bo = true <;> simp [hbo]

/-- C2: with `headroom` the available headroom read after the residual
clear, the aspiration volume is `1.1 * volume` exactly when `reverse` is set
and that fits the headroom, and `volume` otherwise; the transfer raises
`InsufficientCapacity` if and only if the chosen aspiration volume exceeds
the headroom, and when it does, no physical aspirate was issued. -/
theorem transfer_guarded_aspiration (p : Pipette) (volume : ℚ) (src dst : Loc)
    (tt bo rev : Bool) (headroom asp : ℚ)
    (hh : get_available_volume (residualStep p src).2 = .ok headroom)
    (hasp : asp = if rev = true ∧ volume * (11/10) ≤ headroom
      then volume * (11/10) else volume) :
    ((transfer p volume src dst tt bo rev).2 = .error .insufficientCapacity ↔
      asp > headroom) ∧
    (asp > headroom →
      ∀ a ∈ (transfer p volume src dst tt bo rev).1, ∀ v l, a ≠ Action.aspirate v l) ∧
    (¬ asp > headroom →
      Action.aspirate asp src ∈ (transfer p volume src dst tt bo rev).1) := by
  by_cases hg : asp > headroom
  · have htr := transfer_eq_insufficient p volume src dst tt bo rev headroom asp hh hasp hg
    refine ⟨⟨fun _ => hg, fun _ => by rw [htr]⟩, fun _ => ?_, fun h => absurd hg h⟩
    rw [htr]
    exact residualStep_no_aspirate p src
  · have htr := transfer_eq_ok p volume src dst tt bo rev headroom asp hh hasp hg
    refine ⟨⟨fun h => ?_, fun h => absurd h hg⟩, fun h => absurd h hg, fun _ => ?_⟩
    · rw [htr] at h
      exact absurd h (by simp)
    · rw [htr]
      simp

/-- Witness for C2: headroom 10 with a held tip; requesting 9 with `reverse`
aspirates `9.9`; requesting 15 fails with `InsufficientCapacity` before any
aspirate. -/
theorem transfer_guarded_aspiration_witness :
    (Action.aspirate (99/10) 1
        ∈ (transfer { demoPipette with max_volume := 10, has_tip := true }
            9 1 2 false false true).1) ∧
    (transfer { demoPipette with max_volume := 10, has_tip := true }
        15 1 2 false false true).2 = .error .insufficientCapacity := by
  have hh : get_available_volume
      (residualStep { demoPipette with max_volume := 10, has_tip := true } 1).2
        = .ok 10 := by
    simp [residualStep, demoPipette, get_available_volume]
  constructor
  · exact (transfer_guarded_aspiration
      { demoPipette with max_volume := 10, has_tip := true }
      9 1 2 false false true 10 (99/10) hh (by norm_num)).2.2 (by norm_num)
  · exact ((transfer_guarded_aspiration
      { demoPipette with max_volume := 10, has_tip := true }
      15 1 2 false false true 10 15 hh (by norm_num)).1).mpr (by norm_num)

/-- C5: a successful transfer issues, in order, the residual clear into the
source (when residual volume is held), the guarded aspirate from the source,
the dispense of the originally requested volume into the destination, then
the optional blow-out and touch-tip at the destination; the resulting held
volume is the 10% margin exactly when the over-aspiration margin was applied
and not blown out, and 0 otherwise. -/
theorem transfer_step_order (p : Pipette) (volume : ℚ) (src dst : Loc)
    (tt bo rev : Bool) (headroom asp : ℚ)
    (hh : get_available_volume (residualStep p src).2 = .ok headroom)
    (hasp : asp = if rev = true ∧ volume * (11/10) ≤ headroom
      then volume * (11/10) else volume)
    (hfit : ¬ asp > headroom) :
    ∃ q : Pipette,
      transfer p volume src dst tt bo rev
        = ((if p.current_volume ≠ 0 then [Action.dispense p.current_volume src] else [])
            ++ [Action.aspirate asp src, Action.dispense volume dst]
            ++ (if bo = true then [Action.blowOut dst] else [])
            ++ (if tt = true then [Action.touchTip dst] else []),
          .ok q) ∧
      q.current_volume
        = if (rev = true ∧ volume * (11/10) ≤ headroom) ∧ bo = false
          then volume / 10 else 0 := by
  have htr := transfer_eq_ok p volume src dst tt bo rev headroom asp hh hasp hfit
  refine ⟨(if bo = true
      then doBlowOut (doDispense (doAspirate (residualStep p src).2 asp) volume)
      else doDispense (doAspirate (residualStep p src).2 asp) volume), ?_, ?_⟩
  · rw [htr, residualStep_trace]
  · have hcv := residualStep_current_volume p src
    subst hasp
    by_cases hbo : bo = true
    · rw [if_pos hbo, if_neg (show
        ¬((rev = true ∧ volume * (11/10) ≤ headroom) ∧ bo = false) from by simp [hbo])]
      simp [doBlowOut]
    · have hbo' : bo = false := by simpa using hbo
      rw [if_neg hbo]
      by_cases hrev : rev = true ∧ volume * (11/10) ≤ headroom
      · rw [if_pos hrev, if_pos ⟨hrev, hbo'⟩]
        simp only [doDispense, doAspirate, hcv]
        ring
      · rw [if_neg hrev, if_neg (fun h => hrev h.1)]
        simp only [doDispense, doAspirate, hcv]
        ring
/-- Witness for C5: a reverse transfer of 9 uL with touch-tip from a
headroom-10 tip leaves the 0.9 uL margin held, after the exact step
sequence. -/
theorem transfer_step_order_witness :
    ∃ q : Pipette,
      transfer { demoPipette with max_volume := 10, has_tip := true } 9 1 2 true false true
        = ([Action.aspirate (99/10) 1, Action.dispense 9 2, Action.touchTip 2], .ok q) ∧
      q.current_volume = 9/10 := by
  have hh : get_available_volume
      (residualStep { demoPipette with max_volume := 10, has_tip := true } 1).2
        = .ok 10 := by
    simp [residualStep, demoPipette, get_available_volume]
  obtain ⟨q, hq, hv⟩ := transfer_step_order
    { demoPipette with max_volume := 10, has_tip := true } 9 1 2 true false true 10 (99/10)
    hh (by norm_num) (by norm_num)
  refine ⟨q, ?_, ?_⟩
  · rw [hq]
    norm_num [demoPipette]
  · rw [hv]
    norm_num

/-! ### Exhaustion and the refill path -/

lemma mem_columnStarts {len n w : ℕ} (h : w ∈ columnStarts len n) : w + n ≤ 8 := by
  rw [columnStarts, List.mem_filterMap] at h
  obtain ⟨i2, _, hw⟩ := h
  by_cases hg : 7 - i2 + n > 8
  · simp [hg] at hw
  · simp [hg] at hw
    omega

lemma mem_rackOrderAux (full : TipRack) (n : ℕ) :
    ∀ (cols : List TipColumn) (i1 : ℕ), full.drop i1 = cols →
    ∀ cw ∈ rackOrderAux cols i1 n,
      (full.getD cw.1 []) ∈ full ∧ cw.2 + n ≤ 8 := by
  intro cols
  induction cols with
  | nil =>
    intro i1 _ cw hcw
    simp [rackOrderAux] at hcw
  | cons col rest ih =>
    intro i1 hdrop cw hcw
    rw [rackOrderAux, List.mem_append] at hcw
    cases hcw with
    | inl hin =>
      rw [List.mem_map] at hin
      obtain ⟨w, hw, rfl⟩ := hin
      have hget : full.getD i1 [] = col := getD_of_drop_cons hdrop []
      have hmem : col ∈ full := by
        have h0 : full[i1]? = some col := by
          have := List.getElem?_drop full i1 0
          rw [hdrop] at this
          simpa using this.symm
        exact List.mem_iff_getElem?.mpr ⟨i1, h0⟩
      exact ⟨by rw [show ((i1, w).1 : ℕ) = i1 from rfl, hget]; exact hmem,
        mem_columnStarts hw⟩
    | inr hin => exact ih (i1 + 1) (drop_succ_of_drop_cons hdrop) cw hin

lemma mem_searchOrderAux (fullRacks : List TipRack) (n : ℕ) :
    ∀ (racks : List TipRack) (ir : ℕ), fullRacks.drop ir = racks →
    ∀ t ∈ searchOrderAux racks ir n,
      (fullRacks.getD t.1 []) ∈ fullRacks ∧
      ((fullRacks.getD t.1 []).getD t.2.1 []) ∈ (fullRacks.getD t.1 []) ∧
      t.2.2 + n ≤ 8 := by
  intro racks
  induction racks with
  | nil =>
    intro ir _ t ht
    simp [searchOrderAux] at ht
  | cons rack rest ih =>
    intro ir hdrop t ht
    rw [searchOrderAux, List.mem_append] at ht
    cases ht with
    | inl hin =>
      rw [List.mem_map] at hin
      obtain ⟨cw, hcw, rfl⟩ := hin
      have hget : fullRacks.getD ir [] = rack := getD_of_drop_cons hdrop []
      have hmem : rack ∈ fullRacks := by
        have h0 : fullRacks[ir]? = some rack := by
          have := List.getElem?_drop fullRacks ir 0
          rw [hdrop] at this
          simpa using this.symm
        exact List.mem_iff_getElem?.mpr ⟨ir, h0⟩
      obtain ⟨hcol, hwn⟩ := mem_rackOrderAux rack n rack 0 rfl cw hcw
      refine ⟨?_, ?_, hwn⟩
      · rw [show (((ir, cw.1, cw.2) : ℕ × ℕ × ℕ).1 : ℕ) = ir from rfl, hget]
        exact hmem
      · rw [show (((ir, cw.1, cw.2) : ℕ × ℕ × ℕ).1 : ℕ) = ir from rfl, hget]
        exact hcol
    | inr hin => exact ih (ir + 1) (drop_succ_of_drop_cons hdrop) t hin

lemma runFree_eq_false_of_unavailable {tt : List Bool} {w n : ℕ}
    (hn : 1 ≤ n) (hfalse : tt[w]? = some false) :
    runFree tt w n = false := by
  have hmem : (false : Bool) ∈ (tt.drop w).take n := by
    apply List.mem_iff_getElem?.mpr
    refine ⟨0, ?_⟩
    rw [List.getElem?_take, if_pos (by omega), List.getElem?_drop]
    simpa using hfalse
  cases hall : runFree tt w n
  · rfl
  · exact absurd (List.all_eq_true.mp hall false hmem) (by simp)

/-- When every slot of every configured 8-row rack is unavailable, the tip
search fails (for any positive count). -/
lemma next_tip_none_of_all_empty (racks : List TipRack) (n : ℕ) (hn : 1 ≤ n)
    (h8 : ∀ rack ∈ racks, ∀ col ∈ rack, col.length = 8)
    (hempty : ∀ rack ∈ racks, ∀ col ∈ rack, ∀ well ∈ col, well.has_tip = false) :
    next_tip racks n = none := by
  rw [next_tip_eq_find?_searchOrder, List.find?_eq_none]
  intro t ht
  obtain ⟨hrmem, hcmem, hwn⟩ := mem_searchOrderAux racks n racks 0 rfl t ht
  have hlen : ((racks.getD t.1 []).getD t.2.1 []).length = 8 :=
    h8 _ hrmem _ hcmem
  have hwlt : t.2.2 < ((racks.getD t.1 []).getD t.2.1 []).length := by omega
  have hfalse : (columnTips ((racks.getD t.1 []).getD t.2.1 []))[t.2.2]? = some false := by
    rw [columnTips, List.getElem?_map, List.getElem?_eq_getElem hwlt]
    simpa using hempty _ hrmem _ hcmem _ (List.getElem_mem hwlt)
  rw [freeRunAt, runFree_eq_false_of_unavailable hn hfalse]
  simp

/-- C10: with no tip held and every configured rack empty, the headroom
lookahead raises `OutOfTipsError` rather than returning a volume (no refill
recovery), so a transfer attempted in that state fails with `OutOfTips`,
not `InsufficientCapacity`, and issues no driver call. -/
theorem get_available_volume_out_of_tips (p : Pipette)
    (hnt : p.has_tip = false) (hcv : p.current_volume = 0)
    (h8 : ∀ rack ∈ p.tip_racks, ∀ col ∈ rack, col.length = 8)
    (hempty : ∀ rack ∈ p.tip_racks, ∀ col ∈ rack, ∀ well ∈ col, well.has_tip = false) :
    get_available_volume p = .error .outOfTips ∧
    ∀ (volume : ℚ) (src dst : Loc) (tt bo rev : Bool),
      transfer p volume src dst tt bo rev = ([], .error .outOfTips) := by
  have hnone := next_tip_none_of_all_empty p.tip_racks 1 (le_refl 1) h8 hempty
  have h1 : get_available_volume p = .error .outOfTips := by
    simp [get_available_volume, hnt, hnone]
  refine ⟨h1, ?_⟩
  intro volume src dst tt bo rev
  have hres : residualStep p src = ([], p) := by
    simp [residualStep, hcv]
  simp only [transfer, hres, h1]

/-- An exhausted configuration: the 8-channel pipette with a single rack of
one 8-row column whose tips are all used. -/
def exhaustedPipette : Pipette :=
  { demoPipette with tip_racks := [[List.replicate 8 ⟨false, 20⟩]] }

/-- Witness for C10: on the exhausted pipette, the headroom read raises
`OutOfTips` and a transfer of 5 uL fails the same way with no driver call. -/
theorem get_available_volume_out_of_tips_witness :
    get_available_volume exhaustedPipette = .error .outOfTips ∧
    transfer exhaustedPipette 5 1 2 true false true = ([], .error .outOfTips) := by
  have h := get_available_volume_out_of_tips exhaustedPipette (by decide) (by decide)
    (by decide) (by decide)
  exact ⟨h.1, h.2 5 1 2 true false true⟩

lemma resetRacks_full (racks : List TipRack) :
    ∀ rack ∈ resetRacks racks, ∀ col ∈ rack, ∀ well ∈ col, well.has_tip = true := by
  intro rack hrack col hcol well hwell
  rw [resetRacks, List.mem_map] at hrack
  obtain ⟨rack0, _, rfl⟩ := hrack
  rw [List.mem_map] at hcol
  obtain ⟨col0, _, rfl⟩ := hcol
  rw [List.mem_map] at hwell
  obtain ⟨well0, _, rfl⟩ := hwell
  rfl

lemma pick_up_tip_prompt_count_le_one (q : Pipette) (m : ℤ) (l : Option (ℕ × ℕ × ℕ)) :
    ((pick_up_tip q m l).1.count Event.promptRefill) ≤ 1 := by
  cases l with
  | some loc => simp [pick_up_tip, List.count_cons]
  | none =>
    by_cases hv : 0 < m ∧ m ≤ (q.channels : ℤ)
    · simp only [pick_up_tip, if_neg (not_not_intro hv)]
      cases h1 : next_tip q.tip_racks m.toNat with
      | some t => simp [List.count_cons]
      | none =>
        cases h2 : next_tip (resetRacks q.tip_racks) m.toNat with
        | some t => simp [List.count_cons]
        | none => simp [List.count_cons]
    · simp [pick_up_tip, hv]

/-- C3: when no satisfying run exists in any configured rack, `pick_up_tip`
prompts the operator exactly once, resets every rack to full, retries the
identical request exactly once, and fails with `OutOfTipsError` if the retry
still finds no run; no call ever prompts more than once. -/
theorem pick_up_tip_refill_once (p : Pipette) (number : ℤ)
    (hv : 0 < number ∧ number ≤ (p.channels : ℤ))
    (hx : next_tip p.tip_racks number.toNat = none) :
    (pick_up_tip p number none).1.count Event.promptRefill = 1 ∧
    (∀ rack ∈ resetRacks p.tip_racks, ∀ col ∈ rack, ∀ well ∈ col,
      well.has_tip = true) ∧
    (next_tip (resetRacks p.tip_racks) number.toNat = none →
      pick_up_tip p number none = ([Event.promptRefill], .error .outOfTips)) ∧
    (∀ t, next_tip (resetRacks p.tip_racks) number.toNat = some t →
      pick_up_tip p number none
        = ([Event.promptRefill, Event.basePickUp t],
          .ok (basePickUp { p with tip_racks := resetRacks p.tip_racks } t number.toNat))) ∧
    (∀ (q : Pipette) (m : ℤ) (l : Option (ℕ × ℕ × ℕ)),
      (pick_up_tip q m l).1.count Event.promptRefill ≤ 1) := by
  have hunfold : pick_up_tip p number none
      = (match next_tip (resetRacks p.tip_racks) number.toNat with
        | some t => ([Event.promptRefill, Event.basePickUp t],
            .ok (basePickUp { p with tip_racks := resetRacks p.tip_racks } t number.toNat))
        | none => ([Event.promptRefill], .error .outOfTips)) := by
    simp only [pick_up_tip, if_neg (not_not_intro hv), hx]
  refine ⟨?_, resetRacks_full p.tip_racks, ?_, ?_,
    pick_up_tip_prompt_count_le_one⟩
  · rw [hunfold]
    cases h2 : next_tip (resetRacks p.tip_racks) number.toNat with
    | some t => simp [List.count_cons]
    | none => simp [List.count_cons]
  · intro h2
    rw [hunfold, h2]
  · intro t h2
    rw [hunfold, h2]

/-- Witness for C3: the exhausted pipette, asked for 3 tips, prompts exactly
once, and after the reset the retry succeeds with the bottom-anchored run of
the refilled column. -/
theorem pick_up_tip_refill_once_witness :
    (pick_up_tip exhaustedPipette 3 none).1.count Event.promptRefill = 1 ∧
    pick_up_tip exhaustedPipette 3 none
      = ([Event.promptRefill, Event.basePickUp (0, 0, 5)],
        .ok (basePickUp
          { exhaustedPipette with tip_racks := resetRacks exhaustedPipette.tip_racks }
          (0, 0, 5) 3)) := by
  have h := pick_up_tip_refill_once exhaustedPipette 3 (by decide) (by decide)
  exact ⟨h.1, h.2.2.2.1 (0, 0, 5) (by decide)⟩

/-! ### Induction scheduling (the per-column loop of `run`) -/

/-- One column's induction plan, from the source:
`start_row = next(i for i, x in enumerate(column_occupancy[column]) if x)`
and `num_tips = sum(column_occupancy[column])`, with the bare `except`
falling back to `(0, 0)` when the generator is exhausted (no occupied row). -/
def columnPlan (occ : List Bool) : ℕ × ℕ :=
  match occ.findIdx? (fun b => b) with
  | some i => (i, occ.count true)
  | none => (0, 0)

/-- The tip-cycle operations of the induction loop. -/
inductive SchedOp where
  | pickUp (n : ℕ)
  | doTransfer (row col : ℕ)
  | dropTip
  deriving DecidableEq, Repr

/-- The induction loop body for one destination column: `continue` when
`num_tips == 0`, otherwise `pick_up_tip(num_tips)`, one `transfer` anchored
at the well `(start_row, column)`, then `drop_tip()`. -/
def columnOps (col : ℕ) (occ : List Bool) : List SchedOp :=
  let plan := columnPlan occ
  if plan.2 = 0 then []
  else [SchedOp.pickUp plan.2, SchedOp.doTransfer plan.1 col, SchedOp.dropTip]

lemma findIdx?_eq_some_of_first :
    ∀ (occ : List Bool) (s i : ℕ), occ.getD i false = true →
    (∀ j, j < i → occ.getD j false = false) →
    occ.findIdx? (fun b => b) s = some (s + i) := by
  intro occ
  induction occ with
  | nil =>
    intro s i hi _
    simp at hi
  | cons b t ih =>
    intro s i hi hj
    cases i with
    | zero =>
      simp only [List.getD] at hi
      simp only [List.findIdx?_cons]
      rw [if_pos (by simpa using hi)]
      rfl
    | succ k =>
      have hb : b = false := by simpa using hj 0 (Nat.succ_pos k)
      simp only [List.findIdx?_cons]
      rw [if_neg (by simp [hb])]
      have := ih (s + 1) k (by simpa using hi)
        (fun j hjk => by simpa using hj (j + 1) (by omega))
      rw [this]
      congr 1
      omega

lemma count_true_pos_of_occupied {occ : List Bool} {i : ℕ}
    (hi : occ.getD i false = true) : occ.count true ≠ 0 := by
  have hmem : true ∈ occ := by
    rcases h : occ[i]? with _ | b
    · rw [List.getD_eq_getElem?_getD, h] at hi
      simp at hi
    · rw [List.getD_eq_getElem?_getD, h] at hi
      rw [Option.getD_some] at hi
      subst hi
      exact List.mem_iff_getElem?.mpr ⟨i, h⟩
  have hpos : 0 < occ.count true := List.count_pos_iff.mpr hmem
  omega

/-- C7: per destination column of the induction loop — a column with no
occupied rows is skipped outright (no pickup, no transfer); otherwise
`start_row` is the first occupied row, `tip_count` the total occupied count
(contiguous or not), and the column performs exactly one pickup of
`tip_count` tips, one transfer anchored at `(start_row, column)`, then the
tip drop. -/
theorem induction_column_schedule (occ : List Bool) (col : ℕ) :
    ((∀ b ∈ occ, b = false) → columnOps col occ = []) ∧
    (∀ i, occ.getD i false = true → (∀ j, j < i → occ.getD j false = false) →
      columnPlan occ = (i, occ.count true) ∧
      columnOps col occ
        = [SchedOp.pickUp (occ.count true), SchedOp.doTransfer i col,
            SchedOp.dropTip]) := by
  constructor
  · intro hall
    have hcnt : occ.count true = 0 := by
      rw [List.count_eq_zero]
      intro hmem
      exact absurd (hall true hmem) (by simp)
    rw [columnOps, columnPlan]
    cases hfi : occ.findIdx? (fun b => b) with
    | none => simp
    | some i => simp [hcnt]
  · intro i hi hj
    have hfi : occ.findIdx? (fun b => b) = some i := by
      simpa using findIdx?_eq_some_of_first occ 0 i hi hj
    have hplan : columnPlan occ = (i, occ.count true) := by
      rw [columnPlan, hfi]
    refine ⟨hplan, ?_⟩
    rw [columnOps, hplan]
    simp [count_true_pos_of_occupied hi]

/-- Witness for C7, the spec's scenario: occupancy `[F,F,T,T,T,F,F,F]`
yields `start_row = 2`, `tip_count = 3` and the single
pickup / transfer / drop cycle for that column. -/
theorem induction_column_schedule_witness :
    columnPlan [false, false, true, true, true, false, false, false] = (2, 3) ∧
    columnOps 2 [false, false, true, true, true, false, false, false]
      = [SchedOp.pickUp 3, SchedOp.doTransfer 2 2, SchedOp.dropTip] := by
  have h := (induction_column_schedule
    [false, false, true, true, true, false, false, false] 2).2 2 (by decide)
    (by decide)
  exact ⟨by simpa using h.1, by simpa using h.2⟩

/-! ### Claim bookkeeping lemmas -/

lemma updateAt_length {α : Type*} (l : List α) (i : ℕ) (f : α → α) :
    (updateAt l i f).length = l.length := by
  induction l generalizing i with
  | nil => rfl
  | cons a t ih =>
    cases i with
    | zero => rfl
    | succ k => simp [updateAt, ih]

lemma updateAt_getD_ne {α : Type*} (l : List α) (i j : ℕ) (f : α → α) (d : α)
    (h : j ≠ i) : (updateAt l i f).getD j d = l.getD j d := by
  induction l generalizing i j with
  | nil => rfl
  | cons a t ih =>
    cases i with
    | zero =>
      cases j with
      | zero => exact absurd rfl h
      | succ m => rfl
    | succ k =>
      cases j with
      | zero => rfl
      | succ m => exact ih k m (fun hk => h (by omega))

lemma updateAt_getD_self {α : Type*} (l : List α) (i : ℕ) (f : α → α) (d : α)
    (hd : f d = d) : (updateAt l i f).getD i d = f (l.getD i d) := by
  induction l generalizing i with
  | nil => simp [updateAt, hd]
  | cons a t ih =>
    cases i with
    | zero => rfl
    | succ k => exact ih k

lemma mem_updateAt {α : Type*} {l : List α} {i : ℕ} {f : α → α} {x : α}
    (hx : x ∈ updateAt l i f) : x ∈ l ∨ ∃ a ∈ l, x = f a := by
  induction l generalizing i with
  | nil => simp [updateAt] at hx
  | cons a t ih =>
    cases i with
    | zero =>
      rw [updateAt, List.mem_cons] at hx
      cases hx with
      | inl h => exact Or.inr ⟨a, List.mem_cons_self a t, h⟩
      | inr h => exact Or.inl (List.mem_cons_of_mem a h)
    | succ k =>
      rw [updateAt, List.mem_cons] at hx
      cases hx with
      | inl h => exact Or.inl (h ▸ List.mem_cons_self a t)
      | inr h =>
        cases ih h with
        | inl h2 => exact Or.inl (List.mem_cons_of_mem a h2)
        | inr h2 =>
          obtain ⟨b, hb, rfl⟩ := h2
          exact Or.inr ⟨b, List.mem_cons_of_mem a hb, rfl⟩

lemma wellAt_claimWell_self (racks : List TipRack) (r c w : ℕ) :
    (wellAt (claimWell racks r c w) r c w).has_tip = false := by
  rw [wellAt, claimWell]
  rw [updateAt_getD_self _ _ _ _ rfl]
  rw [updateAt_getD_self _ _ _ _ rfl]
  rw [updateAt_getD_self _ _ _ _ rfl]

lemma wellAt_claimWell_monotone (racks : List TipRack) (r c w r' c' w' : ℕ)
    (h : (wellAt (claimWell racks r c w) r' c' w').has_tip = true) :
    (wellAt racks r' c' w').has_tip = true := by
  by_cases hr : r' = r
  · subst hr
    by_cases hc : c' = c
    · subst hc
      by_cases hw : w' = w
      · subst hw
        rw [wellAt_claimWell_self] at h
        exact absurd h (by simp)
      · rw [wellAt, claimWell, updateAt_getD_self _ _ _ _ rfl,
          updateAt_getD_self _ _ _ _ rfl, updateAt_getD_ne _ _ _ _ _ hw] at h
        exact h
    · rw [wellAt, claimWell, updateAt_getD_self _ _ _ _ rfl,
        updateAt_getD_ne _ _ _ _ _ hc] at h
      exact h
  · rw [wellAt, claimWell, updateAt_getD_ne _ _ _ _ _ hr] at h
    exact h

lemma wellAt_claimRun_monotone (r c : ℕ) :
    ∀ (m : ℕ) (racks : List TipRack) (w r' c' w' : ℕ),
    (wellAt (claimRun racks r c w m) r' c' w').has_tip = true →
    (wellAt racks r' c' w').has_tip = true := by
  intro m
  induction m with
  | zero => intro racks w r' c' w' h; exact h
  | succ k ih =>
    intro racks w r' c' w' h
    exact wellAt_claimWell_monotone racks r c w r' c' w'
      (ih (claimWell racks r c w) (w + 1) r' c' w' h)

lemma wellAt_claimRun_sets (r c : ℕ) :
    ∀ (m : ℕ) (racks : List TipRack) (w j : ℕ), j < m →
    (wellAt (claimRun racks r c w m) r c (w + j)).has_tip = false := by
  intro m
  induction m with
  | zero => intro racks w j hj; omega
  | succ k ih =>
    intro racks w j hj
    cases j with
    | zero =>
      cases hval : (wellAt (claimRun racks r c w (k + 1)) r c w).has_tip
      · exact hval
      · have := wellAt_claimRun_monotone r c k (claimWell racks r c w) (w + 1) r c w
          (by exact hval)
        rw [wellAt_claimWell_self] at this
        exact absurd this (by simp)
    | succ i =>
      have := ih (claimWell racks r c w) (w + 1) i (by omega)
      rw [show w + (i + 1) = w + 1 + i by omega]
      exact this

lemma claimRun_length (r c : ℕ) :
    ∀ (m : ℕ) (racks : List TipRack) (w : ℕ),
    (claimRun racks r c w m).length = racks.length := by
  intro m
  induction m with
  | zero => intro racks w; rfl
  | succ k ih =>
    intro racks w
    rw [claimRun, ih, claimWell, updateAt_length]

lemma claimWell_cols8 {racks : List TipRack} (r c w : ℕ)
    (h8 : ∀ rack ∈ racks, ∀ col ∈ rack, col.length = 8) :
    ∀ rack ∈ claimWell racks r c w, ∀ col ∈ rack, col.length = 8 := by
  intro rack hrack col hcol
  rcases mem_updateAt hrack with hr | ⟨rack0, hr0, rfl⟩
  · exact h8 rack hr col hcol
  · rcases mem_updateAt hcol with hc | ⟨col0, hc0, rfl⟩
    · exact h8 rack0 hr0 col hc
    · rw [updateAt_length]
      exact h8 rack0 hr0 col0 hc0

lemma claimRun_cols8 (r c : ℕ) :
    ∀ (m : ℕ) (racks : List TipRack) (w : ℕ),
    (∀ rack ∈ racks, ∀ col ∈ rack, col.length = 8) →
    ∀ rack ∈ claimRun racks r c w m, ∀ col ∈ rack, col.length = 8 := by
  intro m
  induction m with
  | zero => intro racks w h8; exact h8
  | succ k ih =>
    intro racks w h8
    exact ih (claimWell racks r c w) (w + 1) (claimWell_cols8 r c w h8)

lemma resetRacks_length (racks : List TipRack) :
    (resetRacks racks).length = racks.length := by
  rw [resetRacks, List.length_map]

lemma resetRacks_cols8 {racks : List TipRack}
    (h8 : ∀ rack ∈ racks, ∀ col ∈ rack, col.length = 8) :
    ∀ rack ∈ resetRacks racks, ∀ col ∈ rack, col.length = 8 := by
  intro rack hrack col hcol
  rw [resetRacks, List.mem_map] at hrack
  obtain ⟨rack0, hr0, rfl⟩ := hrack
  rw [List.mem_map] at hcol
  obtain ⟨col0, hc0, rfl⟩ := hcol
  rw [List.length_map]
  exact h8 rack0 hr0 col0 hc0

/-- Soundness of the tip search on 8-row racks: every slot of the returned
run is available. -/
lemma next_tip_run_avail (racks : List TipRack) (n : ℕ) (t : ℕ × ℕ × ℕ)
    (h8 : ∀ rack ∈ racks, ∀ col ∈ rack, col.length = 8)
    (ht : next_tip racks n = some t) :
    ∀ j, j < n → (wellAt racks t.1 t.2.1 (t.2.2 + j)).has_tip = true := by
  rw [next_tip_eq_find?_searchOrder] at ht
  have hp := List.find?_some ht
  have hmem := List.mem_of_find?_eq_some ht
  obtain ⟨hrmem, hcmem, hwn⟩ := mem_searchOrderAux racks n racks 0 rfl t hmem
  have hlen : ((racks.getD t.1 []).getD t.2.1 []).length = 8 := h8 _ hrmem _ hcmem
  intro j hj
  rw [freeRunAt, runFree] at hp
  have httlen : (columnTips ((racks.getD t.1 []).getD t.2.1 [])).length = 8 := by
    rw [columnTips, List.length_map, hlen]
  have hlt : t.2.2 + j < (columnTips ((racks.getD t.1 []).getD t.2.1 [])).length := by
    omega
  have hslice :
      (((columnTips ((racks.getD t.1 []).getD t.2.1 [])).drop t.2.2).take n)[j]?
        = some (columnTips ((racks.getD t.1 []).getD t.2.1 []))[t.2.2 + j] := by
    rw [List.getElem?_take, if_pos hj, List.getElem?_drop, List.getElem?_eq_getElem hlt]
  have hmem2 := List.mem_iff_getElem?.mpr ⟨j, hslice⟩
  have hval := List.all_eq_true.mp hp _ hmem2
  have hlt' : t.2.2 + j < ((racks.getD t.1 []).getD t.2.1 []).length := by omega
  have hval' : (columnTips ((racks.getD t.1 []).getD t.2.1 []))[t.2.2 + j]?
      = some true := by
    rw [List.getElem?_eq_getElem hlt]
    exact congrArg some hval
  rw [columnTips, List.getElem?_map, List.getElem?_eq_getElem hlt',
    Option.map_some'] at hval'
  rw [wellAt, List.getD_eq_getElem?_getD, List.getElem?_eq_getElem hlt',
    Option.getD_some]
  exact Option.some.inj hval'

/-! ### The allocation invariant: no two live tip sets overlap -/

/-- A physical tip slot identity. `gen` is the rack's replacement
generation: a refill physically replaces the rack with a full one, so slots
of different generations are different physical tips. -/
structure SlotId where
  rack : ℕ
  gen : ℕ
  col : ℕ
  row : ℕ
  deriving DecidableEq, Repr

/-- Allocator-visible state: per-rack replacement generations, the tip
grids, and the live (claimed, not yet dropped) tip sets. -/
structure AllocState where
  gens : List ℕ
  racks : List TipRack
  live : List (List SlotId)
  deriving DecidableEq, Repr

/-- The slot identities of a claimed run of `n` rows from row `w` down. -/
def slotsOf (r g c w n : ℕ) : List SlotId :=
  (List.range n).map (fun j => ⟨r, g, c, w + j⟩)

/-- Whether a slot currently reports available in the given grids. -/
def SlotId.avail (racks : List TipRack) (id : SlotId) : Bool :=
  (wellAt racks id.rack id.col id.row).has_tip

/-- Modelled from the spec (refill coordinator 4.3): the operator physically
replaces every configured rack with a full one — the grids reset to
available and each rack's generation advances. -/
def refillState (s : AllocState) : AllocState :=
  { gens := s.gens.map (fun g => g + 1), racks := resetRacks s.racks, live := s.live }

/-- One `acquire` (the allocator path of `pick_up_tip` without a location):
search, claim the run's slots and record the live tip set; on exhaustion
refill once and retry the identical request; `none` when even the retry
fails (`OutOfTipsError`). -/
def acquireStep (s : AllocState) (n : ℕ) : AllocState × Option (List SlotId) :=
  match next_tip s.racks n with
  | some t =>
    (⟨s.gens, claimRun s.racks t.1 t.2.1 t.2.2 n,
      slotsOf t.1 (s.gens.getD t.1 0) t.2.1 t.2.2 n :: s.live⟩,
      some (slotsOf t.1 (s.gens.getD t.1 0) t.2.1 t.2.2 n))
  | none =>
    let s' := refillState s
    match next_tip s'.racks n with
    | some t =>
      (⟨s'.gens, claimRun s'.racks t.1 t.2.1 t.2.2 n,
        slotsOf t.1 (s'.gens.getD t.1 0) t.2.1 t.2.2 n :: s'.live⟩,
        some (slotsOf t.1 (s'.gens.getD t.1 0) t.2.1 t.2.2 n))
    | none => (s', none)

/-- One `release` (`drop_tip`): the tip set stops being live; used slots do
not return to the rack. -/
def releaseStep (s : AllocState) (i : ℕ) : AllocState :=
  { s with live := s.live.eraseIdx i }

/-- The allocation invariant: physical shapes (one generation per rack,
8-row columns), every live slot at most at its rack's current generation
with current-generation live slots unavailable, and pairwise-disjoint live
tip sets. -/
def allocInv (s : AllocState) : Prop :=
  (s.gens.length = s.racks.length ∧
    ∀ rack ∈ s.racks, ∀ col ∈ rack, col.length = 8) ∧
  (∀ ids ∈ s.live, ∀ id ∈ ids,
    id.gen ≤ s.gens.getD id.rack 0 ∧
    (id.gen = s.gens.getD id.rack 0 → id.avail s.racks = false)) ∧
  s.live.Pairwise (fun a b => ∀ id ∈ a, id ∉ b)

lemma mem_slotsOf {r g c w n : ℕ} {id : SlotId} :
    id ∈ slotsOf r g c w n ↔ ∃ j, j < n ∧ id = ⟨r, g, c, w + j⟩ := by
  rw [slotsOf, List.mem_map]
  constructor
  · rintro ⟨j, hj, rfl⟩
    exact ⟨j, List.mem_range.mp hj, rfl⟩
  · rintro ⟨j, hj, rfl⟩
    exact ⟨j, List.mem_range.mpr hj, rfl⟩

lemma getD_of_length_le {α : Type*} {l : List α} {i : ℕ} (h : l.length ≤ i) (d : α) :
    l.getD i d = d := by
  rw [List.getD_eq_getElem?_getD, List.getElem?_eq_none h]
  rfl

lemma avail_out_of_range {racks : List TipRack} {id : SlotId}
    (h : racks.length ≤ id.rack) : id.avail racks = false := by
  rw [SlotId.avail, wellAt, getD_of_length_le h]
  rfl

lemma getD_map_add_one {gens : List ℕ} {r : ℕ} (hr : r < gens.length) :
    (gens.map (fun g => g + 1)).getD r 0 = gens.getD r 0 + 1 := by
  rw [List.getD_eq_getElem?_getD, List.getD_eq_getElem?_getD, List.getElem?_map,
    List.getElem?_eq_getElem hr]
  rfl

lemma next_tip_rack_lt {racks : List TipRack} {n : ℕ} {t : ℕ × ℕ × ℕ}
    (ht : next_tip racks n = some t) : t.1 < racks.length := by
  rw [next_tip_eq_find?_searchOrder] at ht
  have hmem := List.mem_of_find?_eq_some ht
  obtain ⟨_, hcmem, _⟩ := mem_searchOrderAux racks n racks 0 rfl t hmem
  by_contra hge
  push_neg at hge
  rw [getD_of_length_le hge] at hcmem
  simp at hcmem

lemma avail_claimRun_monotone {racks : List TipRack} {r c w m : ℕ} {id : SlotId}
    (h : id.avail (claimRun racks r c w m) = true) : id.avail racks = true :=
  wellAt_claimRun_monotone r c m racks w id.rack id.col id.row h

/-- C8: over any valid acquire/release step from an invariant-satisfying
state, acquire returns only slots that reported available in the grids it
claimed from, marks every returned slot unavailable before returning, and
the returned set overlaps no live tip set; the invariant — in particular
pairwise disjointness of all live tip sets — is preserved by both
operations. -/
theorem tip_sets_never_overlap (s : AllocState) (n : ℕ)
    (hinv : allocInv s) :
    allocInv (acquireStep s n).1 ∧
    (∀ i : ℕ, allocInv (releaseStep s i)) ∧
    (∀ ids, (acquireStep s n).2 = some ids →
      (∀ id ∈ ids, id.avail (acquireStep s n).1.racks = false) ∧
      (∀ old ∈ s.live, ∀ id ∈ ids, id ∉ old) ∧
      (next_tip s.racks n ≠ none → ∀ id ∈ ids, id.avail s.racks = true) ∧
      (next_tip s.racks n = none →
        ∀ id ∈ ids, id.avail (resetRacks s.racks) = true)) := by
  obtain ⟨⟨hlen, h8⟩, hlive, hdisj⟩ := hinv
  have hrel : ∀ i : ℕ, allocInv (releaseStep s i) := by
    intro i
    refine ⟨⟨hlen, h8⟩, ?_, ?_⟩
    · intro ids hids id hid
      exact hlive ids (List.eraseIdx_subset _ _ hids) id hid
    · exact hdisj.sublist (List.eraseIdx_sublist _ _)
  cases hnt : next_tip s.racks n with
  | some t =>
    have hstep : acquireStep s n
        = (⟨s.gens, claimRun s.racks t.1 t.2.1 t.2.2 n,
            slotsOf t.1 (s.gens.getD t.1 0) t.2.1 t.2.2 n :: s.live⟩,
          some (slotsOf t.1 (s.gens.getD t.1 0) t.2.1 t.2.2 n)) := by
      rw [acquireStep, hnt]
    have havail : ∀ id ∈ slotsOf t.1 (s.gens.getD t.1 0) t.2.1 t.2.2 n,
        id.avail s.racks = true := by
      intro id hid
      obtain ⟨j, hj, rfl⟩ := mem_slotsOf.mp hid
      exact next_tip_run_avail s.racks n t h8 hnt j hj
    have hclaimed : ∀ id ∈ slotsOf t.1 (s.gens.getD t.1 0) t.2.1 t.2.2 n,
        id.avail (claimRun s.racks t.1 t.2.1 t.2.2 n) = false := by
      intro id hid
      obtain ⟨j, hj, rfl⟩ := mem_slotsOf.mp hid
      exact wellAt_claimRun_sets t.1 t.2.1 n s.racks t.2.2 j hj
    have hnotin : ∀ old ∈ s.live,
        ∀ id ∈ slotsOf t.1 (s.gens.getD t.1 0) t.2.1 t.2.2 n, id ∉ old := by
      intro old hold id hid hin
      obtain ⟨j, hj, hideq⟩ := mem_slotsOf.mp hid
      have hfalse := (hlive old hold id hin).2 (by rw [hideq])
      rw [havail id hid] at hfalse
      exact absurd hfalse (by simp)
    refine ⟨?_, hrel, ?_⟩
    · rw [hstep]
      refine ⟨⟨?_, ?_⟩, ?_, ?_⟩
      · rw [claimRun_length]
        exact hlen
      · exact claimRun_cols8 t.1 t.2.1 n s.racks t.2.2 h8
      · intro ids hids id hid
        rcases List.mem_cons.mp hids with rfl | holdmem
        · obtain ⟨j, hj, rfl⟩ := mem_slotsOf.mp hid
          exact ⟨le_refl _, fun _ => hclaimed _ hid⟩
        · obtain ⟨hle, himp⟩ := hlive ids holdmem id hid
          refine ⟨hle, fun heq => ?_⟩
          cases hval : id.avail (claimRun s.racks t.1 t.2.1 t.2.2 n)
          · rfl
          · rw [avail_claimRun_monotone hval] at himp
            exact absurd (himp heq) (by simp)
      · rw [List.pairwise_cons]
        exact ⟨fun old hold id hid => hnotin old hold id hid, hdisj⟩
    · intro ids hids
      rw [hstep] at hids
      cases hids
      rw [hstep]
      exact ⟨hclaimed, hnotin, fun _ => havail, fun h => absurd h (by simp)⟩
  | none =>
    have hgenslen : s.gens.length = (resetRacks s.racks).length := by
      rw [resetRacks_length]
      exact hlen
    have h8r := resetRacks_cols8 h8
    have holdinv : ∀ ids ∈ s.live, ∀ id ∈ ids,
        id.gen ≤ (s.gens.map (fun g => g + 1)).getD id.rack 0 ∧
        (id.gen = (s.gens.map (fun g => g + 1)).getD id.rack 0 →
          ∀ racks' : List TipRack, racks'.length = s.racks.length →
            id.avail racks' = false) := by
      intro ids hids id hid
      obtain ⟨hle, _⟩ := hlive ids hids id hid
      by_cases hrk : id.rack < s.gens.length
      · rw [getD_map_add_one hrk]
        exact ⟨by omega, fun heq => absurd heq (by omega)⟩
      · push_neg at hrk
        have h0 : s.gens.getD id.rack 0 = 0 := getD_of_length_le hrk 0
        have h0' : (s.gens.map (fun g => g + 1)).getD id.rack 0 = 0 :=
          getD_of_length_le (by rw [List.length_map]; exact hrk) 0
        rw [h0] at hle
        refine ⟨by omega, fun _ racks' hlen' => ?_⟩
        exact avail_out_of_range (by omega)
    cases hnt2 : next_tip (resetRacks s.racks) n with
    | some t =>
      have hstep : acquireStep s n
          = (⟨s.gens.map (fun g => g + 1),
              claimRun (resetRacks s.racks) t.1 t.2.1 t.2.2 n,
              slotsOf t.1 ((s.gens.map (fun g => g + 1)).getD t.1 0) t.2.1 t.2.2 n
                :: s.live⟩,
            some (slotsOf t.1 ((s.gens.map (fun g => g + 1)).getD t.1 0)
              t.2.1 t.2.2 n)) := by
        rw [acquireStep, hnt]
        show (match next_tip (resetRacks s.racks) n with
          | some t => _
          | none => _) = _
        rw [hnt2]
        simp [refillState]
      have ht1 : t.1 < s.gens.length := by
        rw [hgenslen]
        exact next_tip_rack_lt hnt2
      have hgen : (s.gens.map (fun g => g + 1)).getD t.1 0
          = s.gens.getD t.1 0 + 1 := getD_map_add_one ht1
      have havail : ∀ id ∈ slotsOf t.1 ((s.gens.map (fun g => g + 1)).getD t.1 0)
          t.2.1 t.2.2 n, id.avail (resetRacks s.racks) = true := by
        intro id hid
        obtain ⟨j, hj, rfl⟩ := mem_slotsOf.mp hid
        exact next_tip_run_avail (resetRacks s.racks) n t h8r hnt2 j hj
      have hclaimed : ∀ id ∈ slotsOf t.1 ((s.gens.map (fun g => g + 1)).getD t.1 0)
          t.2.1 t.2.2 n,
          id.avail (claimRun (resetRacks s.racks) t.1 t.2.1 t.2.2 n) = false := by
        intro id hid
        obtain ⟨j, hj, rfl⟩ := mem_slotsOf.mp hid
        exact wellAt_claimRun_sets t.1 t.2.1 n (resetRacks s.racks) t.2.2 j hj
      have hnotin : ∀ old ∈ s.live,
          ∀ id ∈ slotsOf t.1 ((s.gens.map (fun g => g + 1)).getD t.1 0)
            t.2.1 t.2.2 n, id ∉ old := by
        intro old hold id hid hin
        obtain ⟨j, hj, hideq⟩ := mem_slotsOf.mp hid
        obtain ⟨hle, _⟩ := hlive old hold id hin
        have hg : id.gen = s.gens.getD t.1 0 + 1 := by rw [hideq, hgen]
        have hr : id.rack = t.1 := by rw [hideq]
        rw [hr] at hle
        omega
      refine ⟨?_, hrel, ?_⟩
      · rw [hstep]
        refine ⟨⟨?_, ?_⟩, ?_, ?_⟩
        · rw [claimRun_length, resetRacks_length, List.length_map]
          exact hlen
        · exact claimRun_cols8 t.1 t.2.1 n (resetRacks s.racks) t.2.2 h8r
        · intro ids hids id hid
          rcases List.mem_cons.mp hids with rfl | holdmem
          · obtain ⟨j, hj, rfl⟩ := mem_slotsOf.mp hid
            exact ⟨le_refl _, fun _ => hclaimed _ hid⟩
          · obtain ⟨hle, himp⟩ := holdinv ids holdmem id hid
            exact ⟨hle, fun heq => himp heq _
              (by rw [claimRun_length, resetRacks_length])⟩
        · rw [List.pairwise_cons]
          exact ⟨fun old hold id hid => hnotin old hold id hid, hdisj⟩
      · intro ids hids
        rw [hstep] at hids
        cases hids
        rw [hstep]
        exact ⟨hclaimed, hnotin, fun h => absurd rfl h, fun _ => havail⟩
    | none =>
      have hstep : acquireStep s n = (refillState s, none) := by
        rw [acquireStep, hnt]
        show (match next_tip (resetRacks s.racks) n with
          | some t => _
          | none => _) = _
        rw [hnt2]
      refine ⟨?_, hrel, ?_⟩
      · rw [hstep]
        refine ⟨⟨?_, h8r⟩, ?_, hdisj⟩
        · rw [refillState, List.length_map, resetRacks_length]
          exact hlen
        · intro ids hids id hid
          obtain ⟨hle, himp⟩ := holdinv ids hids id hid
          exact ⟨hle, fun heq => himp heq _ (resetRacks_length s.racks)⟩
      · intro ids hids
        rw [hstep] at hids
        cases hids

/-- A small allocator state with one live tip set (rows 3-4 of the single
column, already claimed) and rows 5-7 still available. -/
def allocDemo : AllocState :=
  { gens := [0]
    racks := [[[⟨true, 20⟩, ⟨true, 20⟩, ⟨true, 20⟩, ⟨false, 20⟩, ⟨false, 20⟩,
      ⟨true, 20⟩, ⟨true, 20⟩, ⟨true, 20⟩]]]
    live := [slotsOf 0 0 0 3 2] }

/-- Witness for C8: acquiring 3 tips from `allocDemo` claims rows 5-7,
disjoint from the live set at rows 3-4, marks them unavailable, and
preserves the invariant. -/
theorem tip_sets_never_overlap_witness :
    allocInv (acquireStep allocDemo 3).1 ∧
    (∀ old ∈ allocDemo.live, ∀ id ∈ slotsOf 0 0 0 5 3, id ∉ old) ∧
    (∀ id ∈ slotsOf 0 0 0 5 3,
      SlotId.avail (acquireStep allocDemo 3).1.racks id = false) := by
  have h := tip_sets_never_overlap allocDemo 3 (by unfold allocInv; decide)
  have h2 := h.2.2 (slotsOf 0 0 0 5 3) (by decide)
  exact ⟨h.1, h2.2.1, h2.1⟩

end Protocol
